import Mathlib

/-!
# Verification of storm-thunder's deployment orchestration core

Shallow embedding of the core of the `storm-thunder` repository:

* `storm/utils/util.py` — `naturalSortKey`
* `storm/thunder/base.py` — `BaseNodeInfo`, `DeploymentResult(s)`,
  `DeploymentRunError`, `NodesInfoMap`, `deploy`
* `storm/thunder/manager.py` — `getDeploymentSections`, the section loop of `main`
* `storm/thunder/configuration.py` — `DeploymentInfos.fromHjson` shorthand
  normalization and `DeploymentInfo.fromHjsonSerializable`

The code is Python 2: dict/tuple/string comparison semantics of Python 2 are
reproduced where the code relies on them (mixed int/str comparison of sort
keys, truthiness of empty containers).  Thread pools (`multiprocessing.dummy`)
are used only through `pool.map`, which preserves input order and joins before
returning, so the embedding is sequential.
-/

namespace Storm

/-! ## naturalSortKey (storm/utils/util.py, lines 936-951) -/

/-- One portion of a natural sort key: either a run of digits, compared as a
number (Python `int(portion)`), or a digit-free chunk compared as a string.
In Python 2, any `int` sorts before any `str` (cross-type comparison by type
name), which `keyPartLt` mirrors. -/
inductive KeyPart where
  | num (n : Nat)
  | str (s : String)
deriving Repr, DecidableEq

/-- `re.split("(c)", s)`: the pieces of `s` between occurrences of the single
character `c`, with every separator occurrence kept as its own element
(empty pieces included, as in Python). -/
def splitKeepChar (sep : Char) (s : String) : List String :=
  let step := fun (acc : List String × String) (c : Char) =>
    if c = sep then (acc.1 ++ [acc.2, String.singleton c], "")
    else (acc.1, acc.2.push c)
  let r := s.toList.foldl step ([], "")
  r.1 ++ [r.2]

/-- `re.split("(\\d+)", s)`: chunks of `s` alternating between digit-free text
and maximal digit runs, each maximal digit run kept as its own element.
Empty chunks may be dropped relative to Python's output; the caller filters
out empty portions anyway (`if portion:`), so the resulting key is the same. -/
def splitDigitRuns (s : String) : List String :=
  match s.toList with
  | [] => [""]
  | c :: cs =>
    let step := fun (acc : List String × String × Bool) (d : Char) =>
      if d.isDigit = acc.2.2 then (acc.1, acc.2.1.push d, acc.2.2)
      else (acc.1 ++ [acc.2.1], String.singleton d, d.isDigit)
    let r := cs.foldl step ([], String.singleton c, c.isDigit)
    r.1 ++ [r.2.1]

/-- `int(portion)` for a run of ASCII digits. -/
def digitsToNat (s : String) : Nat :=
  s.toList.foldl (fun n c => n * 10 + (c.toNat - 48)) 0

/-- `naturalSortKey` from `storm/utils/util.py`: split on `/` and `-`
(separators kept), then on maximal digit runs; nonempty digit portions become
numbers, all other nonempty portions stay strings. -/
def naturalSortKey (string : String) : List KeyPart :=
  (splitKeepChar '/' string).flatMap fun part =>
    (splitKeepChar '-' part).flatMap fun subpart =>
      (splitDigitRuns subpart).filterMap fun portion =>
        if portion = "" then none
        else if portion.toList.all Char.isDigit then some (.num (digitsToNat portion))
        else some (.str portion)

/-- Python 2 `<` on strings: bytewise lexicographic comparison, expressed on
character codes (identical on the ASCII names the system handles). -/
def charListLt : List Char → List Char → Bool
  | [], [] => false
  | [], _ :: _ => true
  | _ :: _, [] => false
  | a :: as, b :: bs => a.toNat < b.toNat || (a = b && charListLt as bs)

/-- Python 2 `<` on strings, on `String`. -/
def strLt (a b : String) : Bool := charListLt a.toList b.toList

/-- Python 2 `<` on key elements: numbers compare numerically, strings
lexicographically, and every `int` is smaller than every `str`. -/
def keyPartLt : KeyPart → KeyPart → Bool
  | .num a, .num b => a < b
  | .num _, .str _ => true
  | .str _, .num _ => false
  | .str a, .str b => strLt a b

/-- Python 2 `<` on keys (lists): lexicographic, a strict prefix is smaller. -/
def keyLt : List KeyPart → List KeyPart → Bool
  | [], [] => false
  | [], _ :: _ => true
  | _ :: _, [] => false
  | a :: as, b :: bs => keyPartLt a b || (a = b && keyLt as bs)

/-- The non-strict comparison a stable sort by `<` effectively uses:
`a` may stay before `b` iff `¬ key b < key a`. -/
def keyLe (a b : List KeyPart) : Bool := !(keyLt b a)

/-- `sorted(strings, key=naturalSortKey)`.  Python's sort is stable; any
stable sort agrees with it, so insertion sort is used. -/
def sortedByNaturalKey (strings : List String) : List String :=
  strings.insertionSort fun a b => keyLe (naturalSortKey a) (naturalSortKey b) = true

/-! ## BaseNodeInfo (storm/thunder/base.py, lines 40-60) -/

/-- `BaseNodeInfo.__init__`: keeps the name, a one-element public ip list, a
private ip list that is empty unless `privateIp` is truthy, and
`extra["password"]` only when `password` is truthy (`password : Option String`
stands for the `extra` dict, which holds at most the password key). -/
structure BaseNodeInfo where
  name : String
  public_ips : List String
  private_ips : List String
  password : Option String
deriving Repr, DecidableEq

/-- Python truthiness of an optional string: `None` and `""` are falsy. -/
def truthyString : Option String → Option String
  | some s => if s = "" then none else some s
  | none => none

/-- `BaseNodeInfo(name, publicIp, privateIp=..., password=...)`. -/
def mkBaseNodeInfo (name publicIp : String) (privateIp password : Option String) :
    BaseNodeInfo where
  name := name
  public_ips := [publicIp]
  private_ips := match truthyString privateIp with
    | some p => [p]
    | none => []
  password := truthyString password

/-- The node object embedded in every result and run error
(`DeploymentResult.__init__` lines 166-170, `DeploymentRunError.__init__`
lines 271-275): rebuilt from only the name and addresses, without a password
("make sure not to include the password"). -/
def toResultNode (node : BaseNodeInfo) : BaseNodeInfo :=
  mkBaseNodeInfo node.name (node.public_ips.headD "") node.private_ips.head? none

/-! ## NodesInfoMap (storm/thunder/base.py, lines 302-383) -/

/-- The registry's `nodes` dict, name → `BaseNodeInfo`.  Keys are unique
(`add` refuses duplicates), so an insertion-ordered association list is a
faithful model; the only ordered traversal the code performs is
`sorted(self.items())`, which does not depend on dict iteration order. -/
structure NodesInfoMap where
  nodes : List (String × BaseNodeInfo)
deriving Repr, DecidableEq

/-- `name in self.nodes`. -/
def NodesInfoMap.containsName (m : NodesInfoMap) (name : String) : Bool :=
  m.nodes.any fun p => p.1 = name

/-- `NodesInfoMap.add`: a node whose name is already present is not added
(logged as a warning); otherwise the stored value is a rebuilt
`BaseNodeInfo`, password included. -/
def NodesInfoMap.add (m : NodesInfoMap) (node : BaseNodeInfo) : NodesInfoMap :=
  if m.containsName node.name then m
  else
    ⟨m.nodes ++
      [(node.name,
        mkBaseNodeInfo node.name (node.public_ips.headD "") node.private_ips.head?
          node.password)]⟩

/-- `NodesInfoMap.addNodes`. -/
def NodesInfoMap.addNodes (m : NodesInfoMap) (nodes : List BaseNodeInfo) : NodesInfoMap :=
  nodes.foldl NodesInfoMap.add m

/-- `name.split(".")[0]`: the part of a dotted name before the first `.`
(the whole name when it has no dot). -/
def shortNameOf (name : String) : String :=
  String.mk (name.toList.takeWhile fun c => c ≠ '.')

/-- `sorted(self.items())`: Python 2 sorts the `(name, info)` tuples by name
(names are unique, so the second component never gets compared).  Python's
sort is stable, hence insertion sort agrees with it. -/
def NodesInfoMap.sortedItems (m : NodesInfoMap) : List (String × BaseNodeInfo) :=
  m.nodes.insertionSort fun a b => (!(strLt b.1 a.1)) = true

/-- The short-name-to-node mapping `getNodesByNames` builds: iterating items
in sorted name order, the first node claiming a short name wins; later nodes
with the same short name are skipped (logged as a warning). -/
def NodesInfoMap.shortNameMap (m : NodesInfoMap) : List (String × BaseNodeInfo) :=
  m.sortedItems.foldl
    (fun sm p =>
      let shortName := shortNameOf p.1
      if sm.any (fun q => q.1 = shortName) then sm else sm ++ [(shortName, p.2)])
    []

/-- `NodesInfoMap.getNodesByNames`: exact full-name lookup first, then the
short-name mapping; names matching neither are logged as errors and omitted
from the result (the call never raises). -/
def NodesInfoMap.getNodesByNames (m : NodesInfoMap) (names : List String) :
    List BaseNodeInfo :=
  names.filterMap fun nodeName =>
    match m.nodes.find? (fun p => p.1 = nodeName) with
    | some p => some p.2
    | none => (m.shortNameMap.find? (fun q => q.1 = nodeName)).map (·.2)

/-! ## Deployments, results and the ledger (storm/thunder/base.py) -/

/-- Behavior of a `ClusterDeployment.run(nodes, clients)` invocation:
it returns normally, raises a `DeploymentRunError` (carrying a node, an
exception string and optional status/stdout/stderr), or raises some other
exception (`str(exception)` recorded). -/
inductive ClusterOutcome where
  | ok
  | runError (node : BaseNodeInfo) (exceptionString : String) (status : Option Int)
      (stdout stderr : Option String)
  | exn (msg : String)
deriving Repr

/-- A deployment, with its externally-supplied `run` behavior: a
per-node deployment (`Deployment.run(node, client)`) either returns normally
(`none`) or raises an exception with the given string, per node name; a
cluster deployment runs once with the given outcome. -/
inductive DeploymentKind where
  | perNode (run : String → Option String)
  | cluster (outcome : ClusterOutcome)

/-- A deployment together with its `typeAsString` name. -/
structure DeploymentSpec where
  name : String
  kind : DeploymentKind

/-- A `DeploymentResult` / `DeploymentErrorResult` as stored in the ledger
(timestamps omitted — no verified claim mentions them).  `errorValue` is
`error["value"]`; `isError` distinguishes `DeploymentErrorResult`
(`isinstance` check in `numberOfErrors`). -/
structure ResultRec where
  deploymentName : String
  node : BaseNodeInfo
  isError : Bool
  errorValue : Option String
deriving Repr, DecidableEq

/-- `DeploymentRunError.__init__`'s `value`: the exception string joined with
the optional status/stdout/stderr lines. -/
def deploymentRunErrorValue (exceptionString : String) (status : Option Int)
    (stdout stderr : Option String) : String :=
  let error := [exceptionString]
  let error := match status with
    | some s => error ++ [s!"Status: {s}"]
    | none => error
  let error := match stdout with
    | some s =>
      let st := s.trim
      if st = "" then error else error ++ [s!"Output: {st}"]
    | none => error
  let error := match stderr with
    | some s =>
      let st := s.trim
      if st = "" then error else error ++ [s!"Error: {st}"]
    | none => error
  String.intercalate "\n" error

/-- `DeploymentResult(deployment, node, start, end)`: node rebuilt without
the password. -/
def mkSuccessResult (deploymentName : String) (node : BaseNodeInfo) : ResultRec :=
  ⟨deploymentName, toResultNode node, false, none⟩

/-- `DeploymentErrorResult` built from a generic exception: the error dict is
`{"value": str(error)}`. -/
def mkExnResult (deploymentName : String) (node : BaseNodeInfo) (msg : String) :
    ResultRec :=
  ⟨deploymentName, toResultNode node, true, some msg⟩

/-- A ledger step: the dict mapping node name to result appended by
`addResult` (single entry) or `addResults` (one entry per per-node result). -/
abbrev Step := List (String × ResultRec)

/-- Inserting one key/value pair into a Python dict: an existing key keeps
its position and gets the new value, a new key is appended. -/
def dictInsertStep {α : Type} (d : List (String × α)) (p : String × α) :
    List (String × α) :=
  if d.any (fun q => q.1 = p.1) then
    d.map fun q => if q.1 = p.1 then (q.1, p.2) else q
  else d ++ [p]

/-- Python dict construction from a key/value sequence: first occurrence
fixes the position, a later duplicate key overwrites the value. -/
def dictOfList {α : Type} (l : List (String × α)) : List (String × α) :=
  l.foldl dictInsertStep []

/-- `DeploymentResults.numberOfErrors`: the count of `DeploymentErrorResult`
entries across all steps. -/
def numberOfErrors (steps : List Step) : Nat :=
  (steps.map fun step => (step.filter fun p => p.2.isError).length).sum

/-! ## deploy (storm/thunder/base.py, lines 385-536) -/

/-- One observable `run` invocation during `deploy`: a per-node worker
invoking `deployment.run(node, client)` for the task at the given position in
the deployment list, or a cluster deployment's single `run(nodes, clients)`. -/
inductive RunEvent where
  | nodeRun (taskIdx : Nat) (nodeName : String)
  | clusterRun (taskIdx : Nat)
deriving Repr, DecidableEq

/-- The task position a run event belongs to. -/
def RunEvent.taskIdx : RunEvent → Nat
  | .nodeRun i _ => i
  | .clusterRun i => i

/-- Whether the task at position `i` of the deployment list was dispatched
at all during a run: some `run` invocation of it appears in the trace. -/
def dispatchedAt (events : List RunEvent) (i : Nat) : Bool :=
  events.any fun e => e.taskIdx = i

/-- State of the `for deployment in deployments` loop: the ledger steps and
run events so far, and whether an exception escaped the loop (`crashed`,
which in the source is the `IndexError` from `nodes[0]` on an empty node
list, propagating out of `deploy`). -/
structure TaskLoopResult where
  steps : List Step
  events : List RunEvent
  crashed : Bool
deriving Repr

/-- The `for deployment in deployments` loop of `deploy` (lines 464-516),
processing the remaining deployments with `i` the position of the next one.
After every task the loop re-checks `deploymentResults.numberOfErrors` and
breaks when it is positive. -/
def runTasksGo (nodes : List BaseNodeInfo) :
    List DeploymentSpec → Nat → List Step → List RunEvent → TaskLoopResult
  | [], _, steps, events => ⟨steps, events, false⟩
  | d :: rest, i, steps, events =>
    match d.kind with
    | .cluster outcome =>
      let events := events ++ [.clusterRun i]
      match outcome with
      | .ok =>
        match nodes.head? with
        | none => ⟨steps, events, true⟩
        | some n0 =>
          let steps := steps ++ [[(toResultNode n0 |>.name, mkSuccessResult d.name n0)]]
          if 0 < numberOfErrors steps then ⟨steps, events, false⟩
          else runTasksGo nodes rest (i + 1) steps events
      | .runError node exceptionString status stdout stderr =>
        let stripped := toResultNode node
        let value := deploymentRunErrorValue exceptionString status stdout stderr
        let steps := steps ++ [[(stripped.name, ⟨d.name, toResultNode stripped, true, some value⟩)]]
        if 0 < numberOfErrors steps then ⟨steps, events, false⟩
        else runTasksGo nodes rest (i + 1) steps events
      | .exn msg =>
        match nodes.head? with
        | none => ⟨steps, events, true⟩
        | some n0 =>
          let steps := steps ++ [[(toResultNode n0 |>.name, mkExnResult d.name n0 msg)]]
          if 0 < numberOfErrors steps then ⟨steps, events, false⟩
          else runTasksGo nodes rest (i + 1) steps events
    | .perNode run =>
      let results := nodes.map fun n =>
        match run n.name with
        | none => mkSuccessResult d.name n
        | some msg => mkExnResult d.name n msg
      let events := events ++ nodes.map fun n => RunEvent.nodeRun i n.name
      let steps := steps ++ [dictOfList (results.map fun r => (r.node.name, r))]
      if 0 < numberOfErrors steps then ⟨steps, events, false⟩
      else runTasksGo nodes rest (i + 1) steps events

/-- What a `deploy` call did: the ledger (`steps`), the run events, which
node names had a successfully connected client (`opened`), which clients
were closed before returning (`closed`), whether the all-or-nothing
connection check short-circuited the run (`connectionFailure`), and whether
an uncaught exception escaped `deploy` (`crashed`). -/
structure DeployOutcome where
  steps : List Step
  events : List RunEvent
  opened : List String
  closed : List String
  connectionFailure : Bool
  crashed : Bool

/-- `sorted(nodes, key=lambda node: naturalSortKey(node.name))`. -/
def sortNodes (nodes : List BaseNodeInfo) : List BaseNodeInfo :=
  nodes.insertionSort fun a b =>
    keyLe (naturalSortKey a.name) (naturalSortKey b.name) = true

/-- The synthetic connectivity error message of the connection-failure
branch. -/
def connectionFailureMessage : String :=
  "Found problems connecting to the nodes, stopping deployments"

/-- `deploy(deployments, nodes, ...)`, parameterized by the external
connection behavior `connects` (whether `AdvancedSSHClient.connect()`
succeeds for a node of that name).  Mirrors lines 385-536 of
`storm/thunder/base.py`:

* nodes are natural-sorted;
* an empty deployment list returns fresh empty results before any
  connection attempt;
* one connection per node is attempted through `pool.map` (order-preserving);
* if any connection failed, a fresh ledger holding exactly one synthetic
  `DeploymentErrorResult` on `nodes[0]` is returned immediately — without
  reaching the `closeClient` map at the end;
* otherwise the task loop runs, then every client is closed. -/
def deploy (deployments : List DeploymentSpec) (nodeOrNodes : List BaseNodeInfo)
    (connects : String → Bool) : DeployOutcome :=
  let nodes := sortNodes nodeOrNodes
  if deployments.isEmpty then
    ⟨[], [], [], [], false, false⟩
  else
    let connectedClients := nodes.map fun n => (n, connects n.name)
    let opened := (connectedClients.filter (·.2)).map (·.1.name)
    if connectedClients.any fun p => !p.2 then
      match nodes.head? with
      | some n0 =>
        ⟨[[(toResultNode n0 |>.name, mkExnResult "NodeDeploymentException" n0 connectionFailureMessage)]],
          [], opened, [], true, false⟩
      | none => ⟨[], [], opened, [], true, true⟩
    else
      let r := runTasksGo nodes deployments 0 [] []
      if r.crashed then ⟨r.steps, r.events, opened, [], false, true⟩
      else ⟨r.steps, r.events, opened, nodes.map (·.name), false, false⟩

/-! ## getDeploymentSections (storm/thunder/manager.py, lines 143-176) -/

/-- A `DeploymentInfo` as the section planner sees it: an opaque deployment
payload plus the optional target node names (`DeploymentInfo.__init__` stores
`None` instead of an empty tuple, and `getDeploymentSections` only tests
truthiness, so `some []` behaves like `none`). -/
structure DeploymentInfoEntry (α : Type) where
  deployment : α
  nodes : Option (List String)

/-- Python `set(xs) == set(ys)` on name lists. -/
def nameSetEq (xs ys : List String) : Bool :=
  xs.all (fun x => ys.contains x) && ys.all (fun y => xs.contains y)

/-- The node list an entry resolves to: `getNodesByNames` when the entry has
a truthy target list, all registered nodes otherwise. -/
def resolveEntryNodes {α : Type} (m : NodesInfoMap) (e : DeploymentInfoEntry α) :
    List BaseNodeInfo :=
  match e.nodes with
  | some ns => if ns.isEmpty then m.nodes.map (·.2) else m.getNodesByNames ns
  | none => m.nodes.map (·.2)

/-- The `for deploymentInfo in deploymentInfos.deployments` loop of
`getDeploymentSections`, carrying `deploymentSections`, `currentNodes` and
`currentSection`, with the final `if currentSection:` flush. -/
def getDeploymentSectionsGo {α : Type} (m : NodesInfoMap) :
    List (DeploymentInfoEntry α) → List (List α × List BaseNodeInfo) →
      List BaseNodeInfo → List α → List (List α × List BaseNodeInfo)
  | [], sections, currentNodes, currentSection =>
    if currentSection.isEmpty then sections
    else sections ++ [(currentSection, currentNodes)]
  | e :: rest, sections, currentNodes, currentSection =>
    let deploymentNodes := resolveEntryNodes m e
    if nameSetEq (currentNodes.map (·.name)) (deploymentNodes.map (·.name)) then
      getDeploymentSectionsGo m rest sections currentNodes
        (currentSection ++ [e.deployment])
    else
      let sections :=
        if currentSection.isEmpty then sections
        else sections ++ [(currentSection, currentNodes)]
      getDeploymentSectionsGo m rest sections deploymentNodes [e.deployment]

/-- `getDeploymentSections(deploymentInfos, nodesInformation)`: consecutive
entries whose resolved node sets are equal (as unordered name sets) share a
section. -/
def getDeploymentSections {α : Type} (infos : List (DeploymentInfoEntry α))
    (m : NodesInfoMap) : List (List α × List BaseNodeInfo) :=
  getDeploymentSectionsGo m infos [] [] []

/-! ## The config-file section loop of main (storm/thunder/manager.py, lines 273-279) -/

/-- What the `for deploymentSection in getDeploymentSections(...)` loop of
`main` did: one `DeployOutcome` per `deploy` call, and the exit code —
`some` of `main`'s return value, `none` when an exception escaped a `deploy`
call (crashing `main`). -/
structure MainRunOutcome where
  outcomes : List DeployOutcome
  exitCode : Option Nat

/-- The section loop of `main`: deploy each section in order; return the
error count as soon as a section's results report errors; return `0` after
the last section.  There is no check that skips sections with an empty node
list. -/
def runSectionsGo (connects : String → Bool) :
    List (List DeploymentSpec × List BaseNodeInfo) → List DeployOutcome →
      MainRunOutcome
  | [], acc => ⟨acc, some 0⟩
  | (deployments, nodes) :: rest, acc =>
    let o := deploy deployments nodes connects
    let acc := acc ++ [o]
    if o.crashed then ⟨acc, none⟩
    else if 0 < numberOfErrors o.steps then ⟨acc, some (numberOfErrors o.steps)⟩
    else runSectionsGo connects rest acc

/-- Deploy all sections of a plan, as `main` does with a config file. -/
def runDeploymentSections (sections : List (List DeploymentSpec × List BaseNodeInfo))
    (connects : String → Bool) : MainRunOutcome :=
  runSectionsGo connects sections []

/-! ## The deployment DSL (storm/thunder/configuration.py)

The plan text is handled at the granularity of its whitespace tokens
(`re.finditer(r"(?P<token>\S+)", ...)` in `DeploymentInfos.fromHjson`): a
plan entry list is rendered to the token streams of the two surface
syntaxes, the shorthand normalization of lines 97-120 is embedded over
tokens, and the final text assembled from the produced deployment items is
parsed by the external `hjson` library, modelled here for the restricted
grammar the renderings emit. -/

/-- A parameter value of the restricted plan grammar: a scalar string or a
list of strings (e.g. `deploymentNodes`). -/
inductive ParamValue where
  | str (s : String)
  | strList (xs : List String)
deriving Repr, DecidableEq

/-- An abstract plan entry: a task type name and its parameter object —
`none` for a task written as a bare token in the shorthand syntax and as an
explicit empty parameter object in the canonical syntax. -/
structure PlanEntry where
  task : String
  params : Option (List (String × ParamValue))
deriving Repr, DecidableEq

/-- Tokens of a parameter value: the scalar itself, or the bracketed list
elements, each on its own whitespace-separated token. -/
def valueTokens : ParamValue → List String
  | .str s => [s]
  | .strList xs => ["["] ++ xs ++ ["]"]

/-- Tokens of a parameter object body: `key:` followed by the value tokens,
per parameter. -/
def paramsTokens (ps : List (String × ParamValue)) : List String :=
  ps.flatMap fun p => (p.1 ++ ":") :: valueTokens p.2

/-- Tokens of an entry with an explicit parameter object:
`name: { ...params... }`. -/
def bracedItemTokens (task : String) (ps : List (String × ParamValue)) :
    List String :=
  [task ++ ":", "\x7b"] ++ paramsTokens ps ++ ["\x7d"]

/-- The `"{0}: {1}".format(token, "{}")` item the normalizer produces for a
bare task token, as its whitespace tokens. -/
def mkBareItem (task : String) : List String := [task ++ ":", "\x7b\x7d"]

/-- Tokens of one entry of the canonical syntax (inside its enclosing
braces): a zero-parameter task carries an explicit empty parameter object. -/
def canonicalItemTokens : PlanEntry → List String
  | ⟨task, none⟩ => mkBareItem task
  | ⟨task, some ps⟩ => bracedItemTokens task ps

/-- Tokens of one entry of the shorthand syntax: a zero-parameter task is a
bare task-name token. -/
def shorthandEntryTokens : PlanEntry → List String
  | ⟨task, none⟩ => [task]
  | ⟨task, some ps⟩ => bracedItemTokens task ps

/-- The shorthand token stream of a whole plan. -/
def planShorthandTokens (plan : List PlanEntry) : List String :=
  plan.flatMap shorthandEntryTokens

/-- `"{" in token`. -/
def hasOpenBrace (s : String) : Bool := s.toList.contains '\x7b'

/-- `"}" in token`. -/
def hasCloseBrace (s : String) : Bool := s.toList.contains '\x7d'

/-- State of the token scanner of `DeploymentInfos.fromHjson`:
`deploymentItems` (each item kept as its token list; the source joins the
tokens into one string before reassembling the plan text), `currentItem` and
`currentLevel`. -/
structure NormState where
  items : List (List String)
  currentItem : List String
  currentLevel : Int
deriving Repr

/-- The `while "{" not in currentItem[1]` loop (lines 110-111): bare tokens
buffered before the brace entry are popped from the front and flushed as
zero-parameter items.  `none` models the `IndexError` the source raises when
the buffer runs out before a token containing `{` is second. -/
def flushBareItems (items : List (List String)) :
    List String → Option (List (List String) × List String)
  | x :: y :: rest =>
    if hasOpenBrace y then some (items, x :: y :: rest)
    else flushBareItems (items ++ [mkBareItem x]) (y :: rest)
  | _ => none

/-- One token of the scanner loop (lines 101-113): append the token to the
current item, track the brace depth, and flush the buffered item when the
depth returns to zero. -/
def normStep (s : NormState) (token : String) : Option NormState :=
  let currentItem := s.currentItem ++ [token]
  if hasOpenBrace token then
    some ⟨s.items, currentItem, s.currentLevel + 1⟩
  else if hasCloseBrace token then
    let currentLevel := s.currentLevel - 1
    if currentLevel = 0 then
      match flushBareItems s.items currentItem with
      | some (items, item) => some ⟨items ++ [item], [], 0⟩
      | none => none
    else some ⟨s.items, currentItem, currentLevel⟩
  else some ⟨s.items, currentItem, s.currentLevel⟩

/-- The shorthand normalization pass of `DeploymentInfos.fromHjson`:
scan all tokens, then flush every remaining token as a zero-parameter item
(lines 116-117). -/
def normalizeDeploymentTokens (tokens : List String) :
    Option (List (List String)) := do
  let s ← tokens.foldlM normStep ⟨[], [], 0⟩
  return s.items ++ s.currentItem.map mkBareItem

/-- `s.endswith(":")`, over the character list. -/
def endsWithColon (s : String) : Bool := s.toList.getLast? = some ':'

/-- `s` without its final character. -/
def dropLastChar (s : String) : String := String.mk s.toList.dropLast

/-- State of the parameter-object parser: expecting a key, expecting the
value of a key, inside a bracketed list, after the closing brace, or failed. -/
inductive ParamParseState where
  | atKey (acc : List (String × ParamValue))
  | atValue (acc : List (String × ParamValue)) (key : String)
  | inList (acc : List (String × ParamValue)) (key : String) (elems : List String)
  | closed (acc : List (String × ParamValue))
  | bad
deriving Repr

/-- Modelled from the spec: one token of the external `hjson` library's parse
of a parameter object body, restricted to the grammar the renderings emit
(`key:` tokens followed by a scalar token or a bracketed string list, closed
by `}`). -/
def paramParseStep : ParamParseState → String → ParamParseState
  | .atKey acc, t =>
    if t = "\x7d" then .closed acc
    else if endsWithColon t then .atValue acc (dropLastChar t)
    else .bad
  | .atValue acc key, t =>
    if t = "[" then .inList acc key []
    else .atKey (acc ++ [(key, .str t)])
  | .inList acc key elems, t =>
    if t = "]" then .atKey (acc ++ [(key, .strList elems)])
    else .inList acc key (elems ++ [t])
  | .closed _, _ => .bad
  | .bad, _ => .bad

/-- Modelled from the spec: the external `hjson` library's parse of the body
of a parameter object (everything after `name: {` up to and including the
matching `}`), yielding the parameter dict. -/
def parseParamTokens (tokens : List String) : Option (List (String × ParamValue)) :=
  match tokens.foldl paramParseStep (.atKey []) with
  | .closed acc => some (dictOfList acc)
  | _ => none

/-- Modelled from the spec: the external `hjson` library's parse of one
deployment item (the single-key object `name: {...}` or `name: {}` inside
its enclosing braces), yielding the task type name and the parameter dict. -/
def parseItemTokens : List String → Option (String × List (String × ParamValue))
  | [nameColon, obj] =>
    if endsWithColon nameColon && (obj = "\x7b\x7d") then
      some (dropLastChar nameColon, [])
    else none
  | nameColon :: brace :: rest =>
    if endsWithColon nameColon && (brace = "\x7b") then
      (parseParamTokens rest).map fun ps => (dropLastChar nameColon, ps)
    else none
  | _ => none

/-- The internal representation of one plan entry after loading
(`DeploymentInfo`): the task type name, the parameters handed to the task
constructor, and the optional explicit target node names. -/
structure InternalPlanEntry where
  task : String
  params : List (String × ParamValue)
  nodes : Option (List String)
deriving Repr, DecidableEq

/-- `DeploymentInfo.fromHjsonSerializable` (configuration.py lines 167-205):
`deploymentNodes` is read from the parameter dict; when truthy it must be a
list of strings (`getTypedParameter`, which pops it and raises on a
non-list, dropping the entry), becoming the entry's explicit target list;
when falsy or absent the entry targets all nodes and the parameter dict is
left as is. -/
def toInternalEntry (task : String) (ps : List (String × ParamValue)) :
    Option InternalPlanEntry :=
  match ((ps.find? fun p => p.1 = "deploymentNodes").map (·.2) : Option ParamValue) with
  | none => some ⟨task, ps, none⟩
  | some (.strList xs) =>
    if xs.isEmpty then some ⟨task, ps, none⟩
    else some ⟨task, ps.filter fun p => ¬(p.1 = "deploymentNodes"), some xs⟩
  | some (.str s) =>
    if s = "" then some ⟨task, ps, none⟩
    else none

/-- Parse one deployment item into its internal representation. -/
def parseDeploymentItem (tokens : List String) : Option InternalPlanEntry := do
  let (task, ps) ← parseItemTokens tokens
  toInternalEntry task ps

/-- `DeploymentInfos.fromHjsonSerializable` over the parsed item list: an
entry whose load raises is logged and dropped, the rest of the plan still
loads. -/
def parsePlanItems (items : List (List String)) : List InternalPlanEntry :=
  items.filterMap parseDeploymentItem

/-- The shorthand pipeline of `DeploymentInfos.fromHjson`: normalize the
token stream into deployment items, then load them; `none` when the
normalizer raises. -/
def parseShorthandPlan (tokens : List String) : Option (List InternalPlanEntry) :=
  (normalizeDeploymentTokens tokens).map parsePlanItems

/-- The canonical pipeline: `fromHjson` detects the regular syntax and hands
the text to the `hjson` parse directly, loading each brace-enclosed entry. -/
def parseCanonicalPlan (plan : List PlanEntry) : List InternalPlanEntry :=
  parsePlanItems (plan.map canonicalItemTokens)

/-- A string free of both brace characters (`"{" in token` and
`"}" in token` are both false). -/
def braceFree (s : String) : Bool := !hasOpenBrace s && !hasCloseBrace s

/-- Well-formedness of a value: its rendered tokens contain no braces. -/
def wfValue : ParamValue → Bool
  | .str s => braceFree s
  | .strList xs => xs.all braceFree

/-- Well-formedness of an entry: task name, parameter keys and parameter
values render to brace-free tokens. -/
def wfEntry (e : PlanEntry) : Bool :=
  braceFree e.task &&
    match e.params with
    | none => true
    | some ps => ps.all fun p => braceFree p.1 && wfValue p.2

/-- Well-formedness of a plan. -/
def wfPlan (plan : List PlanEntry) : Bool := plan.all wfEntry

/-- Specification helper: the deployment items the scanner has flushed after
processing a plan's shorthand tokens, having started with `bares` buffered
bare tokens — bare entries stay buffered until the next brace entry flushes
them. -/
def normFlushed : List String → List PlanEntry → List (List String)
  | _, [] => []
  | bares, ⟨t, none⟩ :: rest => normFlushed (bares ++ [t]) rest
  | bares, ⟨t, some ps⟩ :: rest =>
    bares.map mkBareItem ++ [bracedItemTokens t ps] ++ normFlushed [] rest

/-- Specification helper: the bare tokens still buffered when a plan's
shorthand tokens run out (flushed by the trailing
`if currentItem:` pass). -/
def trailingBares : List String → List PlanEntry → List String
  | bares, [] => bares
  | bares, ⟨t, none⟩ :: rest => trailingBares (bares ++ [t]) rest
  | _, ⟨_, some _⟩ :: rest => trailingBares [] rest

/-- The two-task plan of the DSL-equivalence scenario: a task with a scalar
parameter and an explicit target list, and a zero-parameter task. -/
def planExample : List PlanEntry :=
  [⟨"ssh.AddAuthorizedKey",
      some [("publicKeyPath", .str "~/.ssh/id_rsa.pub"),
        ("deploymentNodes", .strList ["node1"])]⟩,
    ⟨"software.UpdateKernel", none⟩]

/-! ## Fixtures used by the concrete scenarios -/

/-- Fixture node `a` (carries an SSH password, exercising the
password-stripping of results). -/
def nodeA : BaseNodeInfo := mkBaseNodeInfo "a" "10.0.0.1" none (some "secret")

/-- Fixture node `b`. -/
def nodeB : BaseNodeInfo := mkBaseNodeInfo "b" "10.0.0.2" none none

/-- Fixture node `c`. -/
def nodeC : BaseNodeInfo := mkBaseNodeInfo "c" "10.0.0.3" none none

/-- Fixture registry holding `a`, `b` and `c`. -/
def regABC : NodesInfoMap := ((NodesInfoMap.mk []).add nodeA).add nodeB |>.add nodeC

/-- Connection behavior where every node connects. -/
def connectsAll : String → Bool := fun _ => true

/-- Connection behavior where only node `a` connects. -/
def connectsOnlyA : String → Bool := fun n => n = "a"

/-- A per-node deployment that succeeds everywhere. -/
def taskOk (name : String) : DeploymentSpec := ⟨name, .perNode fun _ => none⟩

/-- A cluster deployment that returns normally. -/
def clusterOkTask : DeploymentSpec := ⟨"cluster.Configure", .cluster .ok⟩

/-- A cluster deployment raising a `DeploymentRunError` that carries node
`b`. -/
def clusterErrTask : DeploymentSpec :=
  ⟨"cluster.Collect", .cluster (.runError nodeB "boom" none none none)⟩

/-- A plan entry whose target name `ghost` resolves to zero nodes. -/
def ghostEntry : DeploymentInfoEntry DeploymentSpec := ⟨clusterOkTask, some ["ghost"]⟩

end Storm

namespace Storm

/-! ## Supporting lemmas -/

/-- Nodes embedded in results never carry a password. -/
theorem toResultNode_password (n : BaseNodeInfo) : (toResultNode n).password = none := rfl

/-- A dict insertion preserves a predicate holding of all values. -/
theorem dictInsertStep_values {α : Type} (P : α → Prop) (d : List (String × α))
    (p : String × α) (hd : ∀ q ∈ d, P q.2) (hp : P p.2) :
    ∀ q ∈ dictInsertStep d p, P q.2 := by
  intro q hq
  unfold dictInsertStep at hq
  split at hq
  · obtain ⟨q', hq', hf⟩ := List.mem_map.mp hq
    by_cases h : q'.1 = p.1
    · simp only [h, if_pos rfl] at hf
      rw [← hf]
      exact hp
    · simp only [if_neg h] at hf
      rw [← hf]
      exact hd q' hq'
  · rcases List.mem_append.mp hq with h | h
    · exact hd q h
    · simp only [List.mem_singleton] at h
      rw [h]
      exact hp

/-- Every value of a Python dict built from a key/value sequence is one of
the sequence's values. -/
theorem dictOfList_values {α : Type} (P : α → Prop) :
    ∀ (l acc : List (String × α)), (∀ q ∈ acc, P q.2) → (∀ q ∈ l, P q.2) →
      ∀ q ∈ l.foldl dictInsertStep acc, P q.2 := by
  intro l
  induction l with
  | nil => intro acc hacc _ q hq; exact hacc q hq
  | cons p ps ih =>
    intro acc hacc hl q hq
    simp only [List.foldl_cons] at hq
    exact ih (dictInsertStep acc p)
      (dictInsertStep_values P acc p hacc (hl p (List.mem_cons_self p ps)))
      (fun r hr => hl r (List.mem_cons_of_mem p hr)) q hq

/-- Ledger error counts add over concatenation of steps. -/
theorem numberOfErrors_append (s t : List Step) :
    numberOfErrors (s ++ t) = numberOfErrors s + numberOfErrors t := by
  simp [numberOfErrors, List.sum_append]

/-- A prefix of an error-free ledger is error-free. -/
theorem numberOfErrors_take_eq_zero {l : List Step} (h : numberOfErrors l = 0) (j : Nat) :
    numberOfErrors (l.take j) = 0 := by
  have := numberOfErrors_append (l.take j) (l.drop j)
  rw [List.take_append_drop] at this
  omega

/-- The task loop only appends to the ledger it is given. -/
theorem runTasksGo_steps_extend (nodes : List BaseNodeInfo) :
    ∀ (ds : List DeploymentSpec) (i : Nat) (steps : List Step) (events : List RunEvent),
      ∃ t, (runTasksGo nodes ds i steps events).steps = steps ++ t := by
  intro ds
  induction ds with
  | nil => intro i steps events; exact ⟨[], (List.append_nil steps).symm⟩
  | cons d rest ih =>
    intro i steps events
    rcases d with ⟨dname, dkind⟩
    cases dkind with
    | cluster oc =>
      cases oc with
      | ok =>
        simp only [runTasksGo]
        cases nodes.head? with
        | none => exact ⟨[], (List.append_nil steps).symm⟩
        | some n0 =>
          simp only
          split
          · exact ⟨_, rfl⟩
          · obtain ⟨t, ht⟩ := ih (i + 1) (steps ++ [[(toResultNode n0 |>.name, mkSuccessResult dname n0)]]) (events ++ [.clusterRun i])
            rw [List.append_assoc] at ht
            exact ⟨_, ht⟩
      | runError node exc st out err =>
        simp only [runTasksGo]
        split
        · exact ⟨_, rfl⟩
        · obtain ⟨t, ht⟩ := ih (i + 1) _ (events ++ [.clusterRun i])
          rw [List.append_assoc] at ht
          exact ⟨_, ht⟩
      | exn msg =>
        simp only [runTasksGo]
        cases nodes.head? with
        | none => exact ⟨[], (List.append_nil steps).symm⟩
        | some n0 =>
          simp only
          split
          · exact ⟨_, rfl⟩
          · obtain ⟨t, ht⟩ := ih (i + 1) _ (events ++ [.clusterRun i])
            rw [List.append_assoc] at ht
            exact ⟨_, ht⟩
    | perNode run =>
      simp only [runTasksGo]
      split
      · exact ⟨_, rfl⟩
      · obtain ⟨t, ht⟩ := ih (i + 1) _ _
        rw [List.append_assoc] at ht
        exact ⟨_, ht⟩

/-- The task loop can only crash (the `IndexError` from `nodes[0]`) when the
node list is empty. -/
theorem runTasksGo_crashed (nodes : List BaseNodeInfo) :
    ∀ (ds : List DeploymentSpec) (i : Nat) (steps : List Step) (events : List RunEvent),
      (runTasksGo nodes ds i steps events).crashed = true → nodes = [] := by
  intro ds
  induction ds with
  | nil => intro i steps events h; simp [runTasksGo] at h
  | cons d rest ih =>
    intro i steps events h
    rcases d with ⟨dname, dkind⟩
    cases dkind with
    | cluster oc =>
      cases oc with
      | ok =>
        simp only [runTasksGo] at h
        cases hh : nodes.head? with
        | none => exact List.head?_eq_none_iff.mp hh
        | some n0 =>
          rw [hh] at h
          simp only at h
          split at h
          · simp at h
          · exact ih _ _ _ h
      | runError node exc st out err =>
        simp only [runTasksGo] at h
        split at h
        · simp at h
        · exact ih _ _ _ h
      | exn msg =>
        simp only [runTasksGo] at h
        cases hh : nodes.head? with
        | none => exact List.head?_eq_none_iff.mp hh
        | some n0 =>
          rw [hh] at h
          simp only at h
          split at h
          · simp at h
          · exact ih _ _ _ h
    | perNode run =>
      simp only [runTasksGo] at h
      split at h
      · simp at h
      · exact ih _ _ _ h

/-! ## C9 — natural sort -/

/-- C9: the node ordering the orchestrator uses (`sortNodes`, applied by
`deploy`) is the natural sort of `naturalSortKey`: names are split on `/`
and `-`, runs of digits compare numerically and other runs compare as
strings, so `"node2"` precedes `"node10"`, and sorting
`["node10","node2","node1"]` by this key yields
`["node1","node2","node10"]` — both for plain strings and for the node
records `deploy` sorts. -/
theorem natural_sort_behavior :
    sortedByNaturalKey ["node10", "node2", "node1"] = ["node1", "node2", "node10"]
      ∧ keyLt (naturalSortKey "node2") (naturalSortKey "node10") = true
      ∧ naturalSortKey "node2" = [.str "node", .num 2]
      ∧ naturalSortKey "node10" = [.str "node", .num 10]
      ∧ naturalSortKey "x/y-z25b" =
          [.str "x", .str "/", .str "y", .str "-", .str "z", .num 25, .str "b"]
      ∧ (sortNodes
            [mkBaseNodeInfo "node10" "" none none, mkBaseNodeInfo "node2" "" none none,
              mkBaseNodeInfo "node1" "" none none]).map (·.name) =
          ["node1", "node2", "node10"] := by
  decide

/-! ## C4 — section grouping -/

/-- The four plan entries of the section-grouping scenario: resolved target
sets `{a,b}`, `{a,b}` (listed in the other order, exercising the unordered
comparison), `{c}`, `{a,b}`. -/
def sectionEntries : List (DeploymentInfoEntry String) :=
  [⟨"task1", some ["a", "b"]⟩, ⟨"task2", some ["b", "a"]⟩,
    ⟨"task3", some ["c"]⟩, ⟨"task4", some ["a", "b"]⟩]

/-- C4: the section planner merges an entry into the current section exactly
when its resolved node set equals the current section's set as an unordered
set; entries resolving to `[{a,b},{a,b},{c},{a,b}]` yield exactly 3 sections
`({task1,task2},{a,b})`, `({task3},{c})`, `({task4},{a,b})` — the identical
non-adjacent first and last sets are not merged, and the second entry merges
although its target list is written in the other order. -/
theorem section_grouping_behavior :
    getDeploymentSections sectionEntries regABC =
      [(["task1", "task2"],
          [mkBaseNodeInfo "a" "10.0.0.1" none (some "secret"), mkBaseNodeInfo "b" "10.0.0.2" none none]),
        (["task3"], [mkBaseNodeInfo "c" "10.0.0.3" none none]),
        (["task4"],
          [mkBaseNodeInfo "a" "10.0.0.1" none (some "secret"), mkBaseNodeInfo "b" "10.0.0.2" none none])] := by
  decide

/-! ## C6 — name resolution -/

/-- Fixture registry with two nodes sharing the short name `web1`. -/
def regWeb : NodesInfoMap :=
  ((NodesInfoMap.mk []).add (mkBaseNodeInfo "web1.example.com" "1.1.1.1" none none)).add
    (mkBaseNodeInfo "web1.other.com" "2.2.2.2" none none)

/-- C6: name resolution tries the exact full name first and falls back to
the short name (the part before the first `.`), whose map gives each short
name to the first node by sorted full name; a later node with a taken short
name stays reachable by full name; unresolvable names are omitted and the
call never raises (it is total and returns at most one node per requested
name).  Concretely, with `web1.example.com` and `web1.other.com` registered,
`"web1"` resolves to `web1.example.com` and `"web1.other.com"` to its own
node. -/
theorem name_resolution_behavior :
    regWeb.getNodesByNames ["web1"] = [mkBaseNodeInfo "web1.example.com" "1.1.1.1" none none]
      ∧ regWeb.getNodesByNames ["web1.other.com"] =
          [mkBaseNodeInfo "web1.other.com" "2.2.2.2" none none]
      ∧ regWeb.getNodesByNames ["web1", "missing", "web1.other.com"] =
          [mkBaseNodeInfo "web1.example.com" "1.1.1.1" none none,
            mkBaseNodeInfo "web1.other.com" "2.2.2.2" none none]
      ∧ (∀ (m : NodesInfoMap) (names : List String),
          (m.getNodesByNames names).length ≤ names.length)
      ∧ (∀ (m : NodesInfoMap) (name : String) (p : String × BaseNodeInfo),
          m.nodes.find? (fun q => q.1 = name) = some p →
            m.getNodesByNames [name] = [p.2]) := by
  refine ⟨by decide, by decide, by decide, ?_, ?_⟩
  · intro m names
    exact List.length_filterMap_le _ names
  · intro m name p h
    simp [NodesInfoMap.getNodesByNames, h]

/-- C6 witness: the general exact-match clause of
`name_resolution_behavior`, instantiated at the fixture registry and the
full name `web1.other.com`. -/
theorem name_resolution_behavior_witness :
    regWeb.getNodesByNames ["web1.other.com"] =
      [mkBaseNodeInfo "web1.other.com" "2.2.2.2" none none] :=
  name_resolution_behavior.2.2.2.2 regWeb "web1.other.com"
    ("web1.other.com", mkBaseNodeInfo "web1.other.com" "2.2.2.2" none none) (by decide)

/-! ## C10 — no result carries a password -/

/-- Every result the task loop appends to the ledger embeds a node rebuilt
without the password. -/
theorem runTasksGo_password_free (nodes : List BaseNodeInfo) :
    ∀ (ds : List DeploymentSpec) (i : Nat) (steps : List Step) (events : List RunEvent),
      (∀ step ∈ steps, ∀ p ∈ step, p.2.node.password = none) →
      ∀ step ∈ (runTasksGo nodes ds i steps events).steps, ∀ p ∈ step,
        p.2.node.password = none := by
  intro ds
  induction ds with
  | nil => intro i steps events h; simpa [runTasksGo] using h
  | cons d rest ih =>
    intro i steps events h
    have hsingle : ∀ (key : String) (r : ResultRec), r.node.password = none →
        ∀ step ∈ steps ++ [[(key, r)]], ∀ p ∈ step, p.2.node.password = none := by
      intro key r hr step hstep p hp
      rcases List.mem_append.mp hstep with hs | hs
      · exact h step hs p hp
      · simp only [List.mem_singleton] at hs
        subst hs
        simp only [List.mem_singleton] at hp
        subst hp
        exact hr
    rcases d with ⟨dname, dkind⟩
    cases dkind with
    | cluster oc =>
      cases oc with
      | ok =>
        simp only [runTasksGo]
        cases nodes.head? with
        | none => exact h
        | some n0 =>
          simp only
          have h' := hsingle (toResultNode n0).name (mkSuccessResult dname n0)
            (toResultNode_password n0)
          split
          · exact h'
          · exact ih _ _ _ h'
      | runError node exc st out err =>
        simp only [runTasksGo]
        have h' := hsingle (toResultNode node).name
          ⟨dname, toResultNode (toResultNode node), true,
            some (deploymentRunErrorValue exc st out err)⟩
          (toResultNode_password (toResultNode node))
        split
        · exact h'
        · exact ih _ _ _ h'
      | exn msg =>
        simp only [runTasksGo]
        cases nodes.head? with
        | none => exact h
        | some n0 =>
          simp only
          have h' := hsingle (toResultNode n0).name (mkExnResult dname n0 msg)
            (toResultNode_password n0)
          split
          · exact h'
          · exact ih _ _ _ h'
    | perNode run =>
      simp only [runTasksGo]
      have hstep : ∀ p ∈ dictOfList
          ((nodes.map fun n =>
              match run n.name with
              | none => mkSuccessResult dname n
              | some msg => mkExnResult dname n msg).map fun r => (r.node.name, r)),
          p.2.node.password = none := by
        intro p hp
        refine dictOfList_values (fun r => r.node.password = none) _ [] (by simp) ?_ p hp
        intro q hq
        obtain ⟨r, hr, hq'⟩ := List.mem_map.mp hq
        obtain ⟨n, _, hr'⟩ := List.mem_map.mp hr
        subst hq'
        subst hr'
        cases run n.name <;> exact toResultNode_password n
      have h' : ∀ step ∈ steps ++ [dictOfList
          ((nodes.map fun n =>
              match run n.name with
              | none => mkSuccessResult dname n
              | some msg => mkExnResult dname n msg).map fun r => (r.node.name, r))],
          ∀ p ∈ step, p.2.node.password = none := by
        intro step hs p hp
        rcases List.mem_append.mp hs with hs | hs
        · exact h step hs p hp
        · simp only [List.mem_singleton] at hs
          subst hs
          exact hstep p hp
      split
      · exact h'
      · exact ih _ _ _ h'

/-- C10: no result in the ledger ever contains a node's SSH password — on
every path (per-node success, per-node error, cluster success, cluster
error, and the synthetic connection-failure record) the node embedded in the
result is rebuilt from only the name and addresses, with the password field
absent. -/
theorem results_never_contain_password (ds : List DeploymentSpec)
    (nodes : List BaseNodeInfo) (connects : String → Bool) :
    ∀ step ∈ (deploy ds nodes connects).steps, ∀ p ∈ step,
      p.2.node.password = none := by
  unfold deploy
  split
  · simp
  · simp only
    split
    · split
      · intro step hstep p hp
        simp only [List.mem_singleton] at hstep
        subst hstep
        simp only [List.mem_singleton] at hp
        subst hp
        exact toResultNode_password _
      · simp
    · split
      · exact runTasksGo_password_free _ _ _ _ _ (by simp)
      · exact runTasksGo_password_free _ _ _ _ _ (by simp)

/-- C10 witness: the success record of a run on the password-carrying node
`a` embeds a password-free node. -/
theorem results_never_contain_password_witness :
    (("a", mkSuccessResult "T1" nodeA) : String × ResultRec).2.node.password = none :=
  results_never_contain_password [taskOk "T1"] [nodeA] connectsAll
    [("a", mkSuccessResult "T1" nodeA)] (by decide)
    ("a", mkSuccessResult "T1" nodeA) (by decide)

/-! ## C2 — all-or-nothing connection phase -/

/-- C2: when at least one node of a (nonempty) deployment fails to connect,
`deploy` runs no task on any node — the run-event trace is empty — and the
ledger it returns holds exactly one result: a single synthetic connectivity
error for the whole batch. -/
theorem connection_failure_all_or_nothing (ds : List DeploymentSpec)
    (nodes : List BaseNodeInfo) (connects : String → Bool)
    (hds : ds ≠ []) (n : BaseNodeInfo) (hn : n ∈ nodes)
    (hfail : connects n.name = false) :
    (deploy ds nodes connects).events = []
      ∧ (deploy ds nodes connects).connectionFailure = true
      ∧ numberOfErrors (deploy ds nodes connects).steps = 1
      ∧ ∃ rec : String × ResultRec,
          (deploy ds nodes connects).steps = [[rec]]
            ∧ rec.2.isError = true
            ∧ rec.2.errorValue = some connectionFailureMessage := by
  have hdse : ds.isEmpty = false := by
    cases ds
    · exact absurd rfl hds
    · rfl
  have hmem : n ∈ sortNodes nodes :=
    (List.perm_insertionSort _ nodes).mem_iff.mpr hn
  have hany : ((sortNodes nodes).map fun m => (m, connects m.name)).any
      (fun p => !p.2) = true := by
    refine List.any_eq_true.mpr ⟨(n, connects n.name), List.mem_map_of_mem _ hmem, ?_⟩
    rw [hfail]
    rfl
  obtain ⟨n0, tail, hsn⟩ : ∃ n0 tail, sortNodes nodes = n0 :: tail := by
    cases hsn : sortNodes nodes with
    | nil =>
      rw [hsn] at hmem
      exact absurd hmem (List.not_mem_nil n)
    | cons n0 tail => exact ⟨n0, tail, rfl⟩
  have hdeploy : deploy ds nodes connects =
      ⟨[[((toResultNode n0).name,
            mkExnResult "NodeDeploymentException" n0 connectionFailureMessage)]],
        [],
        (((sortNodes nodes).map fun m => (m, connects m.name)).filter (·.2)).map
          (·.1.name),
        [], true, false⟩ := by
    unfold deploy
    simp only [hdse, Bool.false_eq_true, if_false, hany, if_true]
    rw [hsn]
    rfl
  rw [hdeploy]
  refine ⟨rfl, rfl, ?_, ?_⟩
  · simp [numberOfErrors, mkExnResult]
  · exact ⟨_, rfl, rfl, rfl⟩

/-- C2 witness: two nodes where `b` cannot connect, one task. -/
theorem connection_failure_all_or_nothing_witness :
    (deploy [taskOk "T1"] [nodeA, nodeB] connectsOnlyA).events = []
      ∧ (deploy [taskOk "T1"] [nodeA, nodeB] connectsOnlyA).connectionFailure = true
      ∧ numberOfErrors (deploy [taskOk "T1"] [nodeA, nodeB] connectsOnlyA).steps = 1
      ∧ ∃ rec : String × ResultRec,
          (deploy [taskOk "T1"] [nodeA, nodeB] connectsOnlyA).steps = [[rec]]
            ∧ rec.2.isError = true
            ∧ rec.2.errorValue = some connectionFailureMessage :=
  connection_failure_all_or_nothing [taskOk "T1"] [nodeA, nodeB] connectsOnlyA
    (List.cons_ne_nil _ _) nodeB (by decide) (by decide)

/-! ## C3 — session teardown (corrected) -/

/-- C3 counterexample: with nodes `a` (connects) and `b` (fails to
connect), `deploy` takes the connection-failure exit path and returns with
the session it successfully opened to `a` never closed — refuting the claim
that every opened session is closed on every exit path. -/
theorem session_leak_on_connection_failure :
    "a" ∈ (deploy [taskOk "T1"] [nodeA, nodeB] connectsOnlyA).opened
      ∧ (deploy [taskOk "T1"] [nodeA, nodeB] connectsOnlyA).closed = []
      ∧ ¬ (∀ name ∈ (deploy [taskOk "T1"] [nodeA, nodeB] connectsOnlyA).opened,
            name ∈ (deploy [taskOk "T1"] [nodeA, nodeB] connectsOnlyA).closed) := by
  decide

/-- C3 amended: on every run in which all connection attempts succeed —
which covers the full-success and the task-error/stop-on-error exit paths —
every session opened during the connect phase is closed before `deploy`
returns; only the batch-connection-failure path (and the `IndexError` path,
where no session was open) returns without closing. -/
theorem sessions_closed_when_all_connect (ds : List DeploymentSpec)
    (nodes : List BaseNodeInfo) (connects : String → Bool)
    (hconn : ∀ n ∈ nodes, connects n.name = true) :
    ∀ name ∈ (deploy ds nodes connects).opened,
      name ∈ (deploy ds nodes connects).closed := by
  have hconn' : ∀ n ∈ sortNodes nodes, connects n.name = true := fun n hn =>
    hconn n ((List.perm_insertionSort _ nodes).mem_iff.mp hn)
  have hany : ((sortNodes nodes).map fun m => (m, connects m.name)).any
      (fun p => !p.2) = false := by
    rw [List.any_eq_false]
    rintro p hp
    obtain ⟨m, hm, rfl⟩ := List.mem_map.mp hp
    rw [hconn' m hm]
    simp
  unfold deploy
  split
  · simp
  · simp only [hany, Bool.false_eq_true, if_false]
    split
    · -- runTasksGo crashed: only possible with an empty node list, so
      -- nothing was opened
      rename_i hcrash
      have hnil := runTasksGo_crashed (sortNodes nodes) ds 0 [] [] hcrash
      rw [hnil]
      simp
    · intro name hname
      simp only at hname
      obtain ⟨p, hp, rfl⟩ := List.mem_map.mp hname
      have hpmem := List.mem_of_mem_filter hp
      obtain ⟨m, hm, rfl⟩ := List.mem_map.mp hpmem
      simp only
      exact List.mem_map_of_mem _ hm

/-- C3 amended witness: with both nodes connecting and a failing task, the
sessions to `a` and `b` are both closed. -/
theorem sessions_closed_when_all_connect_witness :
    "a" ∈ (deploy [taskOk "T1"] [nodeA, nodeB] connectsAll).closed :=
  sessions_closed_when_all_connect [taskOk "T1"] [nodeA, nodeB] connectsAll
    (by decide) "a" (by decide)

/-! ## C1 — sequential stop-on-error -/

/-- A trace made of events below `i` plus events exactly at `i` only
dispatches positions at most `i`. -/
theorem dispatched_le (events newEvents : List RunEvent) (i j : Nat)
    (hev : ∀ e ∈ events, e.taskIdx < i) (hnew : ∀ e ∈ newEvents, e.taskIdx = i)
    (hdisp : dispatchedAt (events ++ newEvents) j = true) : j ≤ i := by
  simp only [dispatchedAt, List.any_eq_true, decide_eq_true_eq] at hdisp
  obtain ⟨e, he, rfl⟩ := hdisp
  rcases List.mem_append.mp he with h | h
  · exact Nat.le_of_lt (hev e h)
  · exact Nat.le_of_eq (hnew e h)

/-- Prefixes of an error-free ledger extended by anything are error-free up
to the ledger's length. -/
theorem ledger_prefix_error_free (i j : Nat) (steps tailSteps : List Step)
    (hlen : steps.length = i) (herr : numberOfErrors steps = 0) (hj : j ≤ i) :
    numberOfErrors ((steps ++ tailSteps).take j) = 0
      ∧ j ≤ (steps ++ tailSteps).length := by
  constructor
  · rw [List.take_append_of_le_length (hlen ▸ hj)]
    exact numberOfErrors_take_eq_zero herr j
  · calc j ≤ i := hj
      _ = steps.length := hlen.symm
      _ ≤ (steps ++ tailSteps).length := by simp

/-- Loop invariant of the task loop: entering iteration `i` with an
error-free ledger of `i` steps and a trace of earlier tasks only, any task
`j` that gets dispatched sees an error-free ledger in its first `j` steps —
the per-task stop-on-error check never lets the loop continue past an
error. -/
theorem runTasksGo_stop_invariant (nodes : List BaseNodeInfo) :
    ∀ (ds : List DeploymentSpec) (i : Nat) (steps : List Step) (events : List RunEvent),
      steps.length = i → numberOfErrors steps = 0 →
      (∀ e ∈ events, e.taskIdx < i) →
      ∀ j, dispatchedAt (runTasksGo nodes ds i steps events).events j = true →
        numberOfErrors ((runTasksGo nodes ds i steps events).steps.take j) = 0
          ∧ j ≤ (runTasksGo nodes ds i steps events).steps.length := by
  intro ds
  induction ds with
  | nil =>
    intro i steps events hlen herr hev j hdisp
    simp only [runTasksGo] at hdisp ⊢
    have hj : j ≤ i := by
      have h0 : events ++ ([] : List RunEvent) = events := List.append_nil events
      exact dispatched_le events [] i j hev (by simp) (by rw [h0]; exact hdisp)
    have := ledger_prefix_error_free i j steps [] hlen herr hj
    rwa [List.append_nil] at this
  | cons d rest ih =>
    intro i steps events hlen herr hev
    have hstep : ∀ (st : Step) (newEvents : List RunEvent),
        (∀ e ∈ newEvents, e.taskIdx = i) →
        ∀ j, dispatchedAt
            (if 0 < numberOfErrors (steps ++ [st]) then
              TaskLoopResult.mk (steps ++ [st]) (events ++ newEvents) false
            else
              runTasksGo nodes rest (i + 1) (steps ++ [st])
                (events ++ newEvents)).events j = true →
          numberOfErrors
              ((if 0 < numberOfErrors (steps ++ [st]) then
                  TaskLoopResult.mk (steps ++ [st]) (events ++ newEvents) false
                else
                  runTasksGo nodes rest (i + 1) (steps ++ [st])
                    (events ++ newEvents)).steps.take j) = 0
            ∧ j ≤ (if 0 < numberOfErrors (steps ++ [st]) then
                  TaskLoopResult.mk (steps ++ [st]) (events ++ newEvents) false
                else
                  runTasksGo nodes rest (i + 1) (steps ++ [st])
                    (events ++ newEvents)).steps.length := by
      intro st newEvents hnew j
      split
      · intro hdisp
        exact ledger_prefix_error_free i j steps [st] hlen herr
          (dispatched_le events newEvents i j hev hnew hdisp)
      · rename_i hnoerr
        exact ih (i + 1) (steps ++ [st]) (events ++ newEvents)
          (by simp [hlen]) (by omega)
          (by
            intro e he
            rcases List.mem_append.mp he with h | h
            · exact Nat.lt_succ_of_lt (hev e h)
            · exact Nat.lt_succ_of_le (Nat.le_of_eq (hnew e h)))
          j
    have hcrash : ∀ j, dispatchedAt (events ++ [RunEvent.clusterRun i]) j = true →
        numberOfErrors (steps.take j) = 0 ∧ j ≤ steps.length := by
      intro j hdisp
      have hj := dispatched_le events [RunEvent.clusterRun i] i j hev
        (by intro e he; simp only [List.mem_singleton] at he; rw [he]; rfl) hdisp
      have := ledger_prefix_error_free i j steps [] hlen herr hj
      rwa [List.append_nil] at this
    rcases d with ⟨dname, dkind⟩
    cases dkind with
    | cluster oc =>
      cases oc with
      | ok =>
        simp only [runTasksGo]
        cases nodes.head? with
        | none => exact hcrash
        | some n0 =>
          exact hstep [((toResultNode n0).name, mkSuccessResult dname n0)]
            [RunEvent.clusterRun i]
            (by intro e he; simp only [List.mem_singleton] at he; rw [he]; rfl)
      | runError node exc st out err =>
        simp only [runTasksGo]
        exact hstep _ [RunEvent.clusterRun i]
          (by intro e he; simp only [List.mem_singleton] at he; rw [he]; rfl)
      | exn msg =>
        simp only [runTasksGo]
        cases nodes.head? with
        | none => exact hcrash
        | some n0 =>
          exact hstep [((toResultNode n0).name, mkExnResult dname n0 msg)]
            [RunEvent.clusterRun i]
            (by intro e he; simp only [List.mem_singleton] at he; rw [he]; rfl)
    | perNode run =>
      simp only [runTasksGo]
      exact hstep _ (nodes.map fun n => RunEvent.nodeRun i n.name)
        (by
          intro e he
          obtain ⟨n, _, rfl⟩ := List.mem_map.mp he
          rfl)

/-- The trace and ledger of `deploy` are either empty (nothing to deploy, or
the connection phase failed) or exactly those of the task loop. -/
theorem deploy_trace (ds : List DeploymentSpec) (nodes : List BaseNodeInfo)
    (connects : String → Bool) :
    (deploy ds nodes connects).events = []
      ∨ ((deploy ds nodes connects).events =
            (runTasksGo (sortNodes nodes) ds 0 [] []).events
          ∧ (deploy ds nodes connects).steps =
            (runTasksGo (sortNodes nodes) ds 0 [] []).steps) := by
  unfold deploy
  split
  · left; rfl
  · dsimp only
    split
    · split
      · left; rfl
      · left; rfl
    · split
      · right; exact ⟨rfl, rfl⟩
      · right; exact ⟨rfl, rfl⟩

/-- C1: once the ledger reports an error, no later task is dispatched on any
node — whenever the task at position `i` was dispatched at all, the first
`i` ledger steps (the results of tasks `0..i-1`, one step per task) exist
and contain zero errors. -/
theorem stop_on_error (ds : List DeploymentSpec) (nodes : List BaseNodeInfo)
    (connects : String → Bool) (i : Nat)
    (hdisp : dispatchedAt (deploy ds nodes connects).events i = true) :
    numberOfErrors ((deploy ds nodes connects).steps.take i) = 0
      ∧ i ≤ (deploy ds nodes connects).steps.length := by
  rcases deploy_trace ds nodes connects with h | ⟨hev, hst⟩
  · rw [h] at hdisp
    simp [dispatchedAt] at hdisp
  · rw [hev] at hdisp
    rw [hst]
    exact runTasksGo_stop_invariant (sortNodes nodes) ds 0 [] [] rfl rfl
      (by simp) i hdisp

/-- C1 witness: with two succeeding tasks on one node, task 1 is dispatched
and the single step before it is error-free. -/
theorem stop_on_error_witness :
    numberOfErrors ((deploy [taskOk "T1", taskOk "T2"] [nodeA] connectsAll).steps.take 1) = 0
      ∧ 1 ≤ (deploy [taskOk "T1", taskOk "T2"] [nodeA] connectsAll).steps.length :=
  stop_on_error [taskOk "T1", taskOk "T2"] [nodeA] connectsAll 1 (by decide)

/-! ## C5 — sections with an empty node list (corrected) -/

/-- On an empty node list the task loop emits only cluster run events: no
connection and no per-node `run` invocation can happen. -/
theorem runTasksGo_empty_nodes_events :
    ∀ (ds : List DeploymentSpec) (i : Nat) (steps : List Step) (events : List RunEvent),
      (∀ e ∈ events, ∃ j, e = RunEvent.clusterRun j) →
      ∀ e ∈ (runTasksGo [] ds i steps events).events, ∃ j, e = RunEvent.clusterRun j := by
  intro ds
  induction ds with
  | nil => intro i steps events h; simpa [runTasksGo] using h
  | cons d rest ih =>
    intro i steps events h
    have h' : ∀ e ∈ events ++ [RunEvent.clusterRun i], ∃ j, e = RunEvent.clusterRun j := by
      intro e he
      rcases List.mem_append.mp he with hh | hh
      · exact h e hh
      · simp only [List.mem_singleton] at hh
        exact ⟨i, hh⟩
    rcases d with ⟨dname, dkind⟩
    cases dkind with
    | cluster oc =>
      cases oc with
      | ok => simpa [runTasksGo] using h'
      | runError node exc st out err =>
        simp only [runTasksGo]
        split
        · exact h'
        · exact ih _ _ _ h'
      | exn msg => simpa [runTasksGo] using h'
    | perNode run =>
      simp only [runTasksGo, List.map_nil, List.append_nil]
      split
      · exact h
      · exact ih _ _ _ h

/-- A cluster deployment heading a zero-node section is executed: the task
loop on an empty node list emits its cluster run event (and then either
raises `IndexError` from `nodes[0]` or stops on the recorded error). -/
theorem runTasksGo_cluster_first_empty (nm : String) (oc : ClusterOutcome)
    (rest : List DeploymentSpec) :
    (runTasksGo [] (⟨nm, .cluster oc⟩ :: rest) 0 [] []).events =
      [RunEvent.clusterRun 0] := by
  cases oc with
  | ok => rfl
  | exn msg => rfl
  | runError node exc st out err =>
    simp only [runTasksGo]
    split
    · rfl
    · rename_i h
      exact absurd (by simp [numberOfErrors]) h

/-- C5 counterexample: the plan entry targeting the unresolvable name
`ghost` yields a section with an empty node list, and the section loop of
`main` does not skip it: `deploy` is called, the cluster task of the section
is executed (its run event is traced), and the run then crashes (`main`'s
loop ends with an uncaught exception instead of returning a count) — so the
section is neither skipped nor free of task execution. -/
theorem empty_section_executed_counterexample :
    ((getDeploymentSections [ghostEntry] regABC).map (·.2)) = [[]]
      ∧ (runDeploymentSections (getDeploymentSections [ghostEntry] regABC)
            connectsAll).outcomes.map (·.events) = [[RunEvent.clusterRun 0]]
      ∧ (runDeploymentSections (getDeploymentSections [ghostEntry] regABC)
            connectsAll).exitCode = none := by
  decide

/-- C5 amended: a section with an empty node list is not skipped; `deploy`
still runs on it.  No connection is opened and no per-node task ever runs on
any node (the trace holds cluster run events only), but a cluster
deployment heading the section is executed — its run event is exactly the
trace — rather than the section being skipped with a warning. -/
theorem empty_node_section_behavior (ds : List DeploymentSpec)
    (connects : String → Bool) :
    (deploy ds [] connects).opened = []
      ∧ (∀ e ∈ (deploy ds [] connects).events, ∃ i, e = RunEvent.clusterRun i)
      ∧ (∀ nm oc rest, ds = ⟨nm, DeploymentKind.cluster oc⟩ :: rest →
          (deploy ds [] connects).events = [RunEvent.clusterRun 0]) := by
  cases ds with
  | nil =>
    refine ⟨rfl, ?_, ?_⟩
    · intro e he
      simp [deploy] at he
    · intro nm oc rest h
      exact absurd h (by simp)
  | cons d rest' =>
    have hdep : deploy (d :: rest') [] connects =
        (if (runTasksGo [] (d :: rest') 0 [] []).crashed = true then
          ⟨(runTasksGo [] (d :: rest') 0 [] []).steps,
            (runTasksGo [] (d :: rest') 0 [] []).events, [], [], false, true⟩
        else
          ⟨(runTasksGo [] (d :: rest') 0 [] []).steps,
            (runTasksGo [] (d :: rest') 0 [] []).events, [], [], false, false⟩) := by
      unfold deploy
      rfl
    refine ⟨?_, ?_, ?_⟩
    · rw [hdep]
      split <;> rfl
    · intro e he
      rw [hdep] at he
      have he' : e ∈ (runTasksGo [] (d :: rest') 0 [] []).events := by
        rcases Bool.eq_false_or_eq_true (runTasksGo [] (d :: rest') 0 [] []).crashed
          with hc | hc <;> simpa [hc] using he
      exact runTasksGo_empty_nodes_events (d :: rest') 0 [] [] (by simp) e he'
    · intro nm oc rest h
      injection h with h1 h2
      rw [hdep, h1, h2]
      have := runTasksGo_cluster_first_empty nm oc rest
      split <;> simpa using this

/-- C5 amended witness: the succeeding cluster task on the empty node list
is executed. -/
theorem empty_node_section_behavior_witness :
    (deploy [clusterOkTask] [] connectsAll).events = [RunEvent.clusterRun 0] :=
  (empty_node_section_behavior [clusterOkTask] connectsAll).2.2
    "cluster.Configure" .ok [] rfl

/-! ## C8 — cluster task results (corrected) -/

/-- What the first loop iteration records for a cluster deployment on a
nonempty node list: one success record on the first sorted node, or — on an
uncaught exception — exactly one error record, on the first sorted node for
a generic exception but on the node carried by a `DeploymentRunError`. -/
theorem runTasksGo_cluster_first (nm : String) (oc : ClusterOutcome)
    (rest : List DeploymentSpec) (n0 : BaseNodeInfo) (tail : List BaseNodeInfo) :
    (oc = .ok →
        (runTasksGo (n0 :: tail) (⟨nm, .cluster oc⟩ :: rest) 0 [] []).steps.head? =
          some [(n0.name, mkSuccessResult nm n0)])
      ∧ (∀ msg, oc = .exn msg →
          (runTasksGo (n0 :: tail) (⟨nm, .cluster oc⟩ :: rest) 0 [] []).steps =
            [[(n0.name, mkExnResult nm n0 msg)]])
      ∧ (∀ node exc st out err, oc = .runError node exc st out err →
          (runTasksGo (n0 :: tail) (⟨nm, .cluster oc⟩ :: rest) 0 [] []).steps =
            [[((toResultNode node).name,
                ⟨nm, toResultNode (toResultNode node), true,
                  some (deploymentRunErrorValue exc st out err)⟩)]]) := by
  refine ⟨?_, ?_, ?_⟩
  · intro h
    subst h
    simp only [runTasksGo, List.head?_cons]
    split
    · rename_i h
      exact absurd h (by simp [numberOfErrors, mkSuccessResult])
    · obtain ⟨t, ht⟩ := runTasksGo_steps_extend (n0 :: tail) rest 1
        [[((toResultNode n0).name, mkSuccessResult nm n0)]] [RunEvent.clusterRun 0]
      simp only [List.nil_append, Nat.zero_add]
      rw [ht]
      rfl
  · intro msg h
    subst h
    simp only [runTasksGo, List.head?_cons]
    split
    · rfl
    · rename_i h
      exact absurd (by simp [numberOfErrors, mkExnResult]) h
  · intro node exc st out err h
    subst h
    simp only [runTasksGo]
    split
    · rfl
    · rename_i h
      exact absurd (by simp [numberOfErrors]) h

/-- C8 counterexample: a ClusterTask raising a `DeploymentRunError` that
carries node `b` produces an error record attributed to `b`, although the
first node in sorted order is `a` — refuting the claim that the record of a
failing ClusterTask is always attributed to the first node in sorted
order. -/
theorem cluster_error_attribution_counterexample :
    (deploy [clusterErrTask] [nodeA, nodeB] connectsAll).steps.map
        (fun s => s.map (·.1)) = [["b"]]
      ∧ ((sortNodes [nodeA, nodeB]).map (·.name)).head? = some "a" := by
  decide

/-- C8 amended: on a nonempty, fully connected node set, a ClusterTask never
makes `deploy` raise and never abandons the teardown (all sessions are
closed); it yields exactly one ResultRecord: a success record attributed to
the first node in sorted order when it returns normally, an error record
attributed to the first node in sorted order when it raises a generic
exception, and an error record attributed to the node carried by the error
when it raises a `DeploymentRunError` — which need not be the first node. -/
theorem cluster_task_record_behavior (nm : String) (oc : ClusterOutcome)
    (rest : List DeploymentSpec) (nodes : List BaseNodeInfo)
    (connects : String → Bool) (n0 : BaseNodeInfo) (tail : List BaseNodeInfo)
    (hsorted : sortNodes nodes = n0 :: tail)
    (hconn : ∀ n ∈ nodes, connects n.name = true) :
    (deploy (⟨nm, .cluster oc⟩ :: rest) nodes connects).crashed = false
      ∧ (deploy (⟨nm, .cluster oc⟩ :: rest) nodes connects).closed =
          (sortNodes nodes).map (·.name)
      ∧ (oc = .ok →
          (deploy (⟨nm, .cluster oc⟩ :: rest) nodes connects).steps.head? =
            some [(n0.name, mkSuccessResult nm n0)])
      ∧ (∀ msg, oc = .exn msg →
          (deploy (⟨nm, .cluster oc⟩ :: rest) nodes connects).steps =
            [[(n0.name, mkExnResult nm n0 msg)]])
      ∧ (∀ node exc st out err, oc = .runError node exc st out err →
          (deploy (⟨nm, .cluster oc⟩ :: rest) nodes connects).steps =
            [[((toResultNode node).name,
                ⟨nm, toResultNode (toResultNode node), true,
                  some (deploymentRunErrorValue exc st out err)⟩)]]) := by
  have hany : ((sortNodes nodes).map fun m => (m, connects m.name)).any
      (fun p => !p.2) = false := by
    rw [List.any_eq_false]
    rintro p hp
    obtain ⟨m, hm, rfl⟩ := List.mem_map.mp hp
    rw [hconn m ((List.perm_insertionSort _ nodes).mem_iff.mp hm)]
    simp
  have hcr : (runTasksGo (n0 :: tail) (⟨nm, .cluster oc⟩ :: rest) 0 [] []).crashed
      = false := by
    cases hc : (runTasksGo (n0 :: tail) (⟨nm, .cluster oc⟩ :: rest) 0 [] []).crashed
    · rfl
    · exact absurd (runTasksGo_crashed _ _ _ _ _ hc) (by simp)
  have hdep : deploy (⟨nm, .cluster oc⟩ :: rest) nodes connects =
      ⟨(runTasksGo (n0 :: tail) (⟨nm, .cluster oc⟩ :: rest) 0 [] []).steps,
        (runTasksGo (n0 :: tail) (⟨nm, .cluster oc⟩ :: rest) 0 [] []).events,
        (((n0 :: tail).map fun m => (m, connects m.name)).filter (·.2)).map
          (·.1.name),
        (n0 :: tail).map (·.name), false, false⟩ := by
    unfold deploy
    simp only [List.isEmpty_cons, Bool.false_eq_true, if_false, hany]
    rw [hsorted, hcr]
    simp
  obtain ⟨hok, hexn, hrunerr⟩ := runTasksGo_cluster_first nm oc rest n0 tail
  rw [hdep, hsorted]
  exact ⟨rfl, rfl, hok, hexn, hrunerr⟩

/-- C8 amended witness: the concrete `DeploymentRunError` scenario — the
error record lands on node `b`, not on the first sorted node `a`. -/
theorem cluster_task_record_behavior_witness :
    (deploy [clusterErrTask] [nodeA, nodeB] connectsAll).steps =
      [[((toResultNode nodeB).name,
          ⟨"cluster.Collect", toResultNode (toResultNode nodeB), true,
            some (deploymentRunErrorValue "boom" none none none)⟩)]] :=
  (cluster_task_record_behavior "cluster.Collect"
      (.runError nodeB "boom" none none none) [] [nodeA, nodeB] connectsAll
      nodeA [nodeB] (by decide) (by decide)).2.2.2.2
    nodeB "boom" none none none rfl

/-! ## C7 — DSL surface-syntax equivalence -/

/-- Appending a brace-free suffix keeps a string brace-free. -/
theorem braceFree_append (s u : String) (hs : braceFree s = true)
    (hu : braceFree u = true) : braceFree (s ++ u) = true := by
  simp only [braceFree, hasOpenBrace, hasCloseBrace, Bool.and_eq_true,
    Bool.not_eq_true'] at hs hu ⊢
  simp_all

/-- The colon token is brace-free. -/
theorem braceFree_colon_tok : braceFree ":" = true := by decide

/-- All parameter-object body tokens of well-formed parameters are
brace-free. -/
theorem paramsTokens_braceFree (ps : List (String × ParamValue))
    (h : ∀ p ∈ ps, (braceFree p.1 && wfValue p.2) = true) :
    ∀ t ∈ paramsTokens ps, braceFree t = true := by
  intro t ht
  simp only [paramsTokens, List.mem_flatMap] at ht
  obtain ⟨p, hp, hmem⟩ := ht
  have hps := h p hp
  rw [Bool.and_eq_true] at hps
  rcases List.mem_cons.mp hmem with h1 | h1
  · rw [h1]
    exact braceFree_append p.1 ":" hps.1 braceFree_colon_tok
  · rcases hv : p.2 with s | xs
    · rw [hv] at h1
      simp only [valueTokens, List.mem_singleton] at h1
      rw [h1]
      have := hps.2
      rwa [hv] at this
    · rw [hv] at h1
      simp only [valueTokens] at h1
      have hxs := hps.2
      rw [hv] at hxs
      simp only [wfValue, List.all_eq_true] at hxs
      rcases List.mem_cons.mp h1 with h2 | h2
      · rw [h2]; decide
      · rcases List.mem_append.mp h2 with h3 | h3
        · exact hxs t h3
        · simp only [List.mem_singleton] at h3
          rw [h3]; decide

/-- Scanning a brace-free token only appends it to the current item. -/
theorem normStep_plain (s : NormState) (t : String) (h : braceFree t = true) :
    normStep s t = some ⟨s.items, s.currentItem ++ [t], s.currentLevel⟩ := by
  simp only [braceFree, Bool.and_eq_true, Bool.not_eq_true'] at h
  simp [normStep, h.1, h.2]

/-- Scanning a run of brace-free tokens appends them all to the current
item, at any brace depth. -/
theorem foldlM_normStep_plain :
    ∀ (ts : List String), (∀ t ∈ ts, braceFree t = true) →
      ∀ (items : List (List String)) (cur : List String) (lvl : Int),
        ts.foldlM normStep ⟨items, cur, lvl⟩ = some ⟨items, cur ++ ts, lvl⟩ := by
  intro ts
  induction ts with
  | nil => intro _ items cur lvl; simp
  | cons t ts ih =>
    intro h items cur lvl
    rw [List.foldlM_cons, normStep_plain _ t (h t (List.mem_cons_self t ts))]
    simp only [Option.pure_def, Option.bind_eq_bind, Option.some_bind]
    rw [ih (fun u hu => h u (List.mem_cons_of_mem t hu)) items (cur ++ [t]) lvl]
    simp

/-- The bare-token flush pops exactly the buffered brace-free tokens in
front of the first token containing `{` in second position. -/
theorem flushBareItems_skip :
    ∀ (bares : List String) (items : List (List String)) (x y : String)
      (rest : List String),
      (∀ b ∈ bares, hasOpenBrace b = false) → hasOpenBrace x = false →
      hasOpenBrace y = true →
      flushBareItems items (bares ++ x :: y :: rest) =
        some (items ++ bares.map mkBareItem, x :: y :: rest) := by
  intro bares
  induction bares with
  | nil =>
    intro items x y rest _ hx hy
    simp [flushBareItems, hy]
  | cons b bs ih =>
    intro items x y rest hb hx hy
    have hbb : hasOpenBrace b = false := hb b (List.mem_cons_self b bs)
    have hbs : ∀ c ∈ bs, hasOpenBrace c = false := fun c hc =>
      hb c (List.mem_cons_of_mem b hc)
    cases bs with
    | nil =>
      simp [flushBareItems, hx, hy]
    | cons b2 bs2 =>
      have hb2 : hasOpenBrace b2 = false := hbs b2 (List.mem_cons_self b2 bs2)
      simp only [List.cons_append, flushBareItems, hb2, Bool.false_eq_true,
        if_false]
      have h0 := ih (items ++ [mkBareItem b]) x y rest hbs hx hy
      simp only [List.cons_append] at h0
      exact h0.trans (by simp)

/-- Scanning one braced entry from depth 0 flushes the buffered bare tokens
as zero-parameter items followed by the entry itself, and clears the
buffer. -/
theorem foldlM_entry_braced (t : String) (ps : List (String × ParamValue))
    (ht : braceFree t = true)
    (hps : ∀ p ∈ ps, (braceFree p.1 && wfValue p.2) = true)
    (items : List (List String)) (bares : List String)
    (hb : ∀ b ∈ bares, braceFree b = true) :
    (bracedItemTokens t ps).foldlM normStep ⟨items, bares, 0⟩ =
      some ⟨items ++ bares.map mkBareItem ++ [bracedItemTokens t ps], [], 0⟩ := by
  have htok := paramsTokens_braceFree ps hps
  have hopenBares : ∀ b ∈ bares, hasOpenBrace b = false := by
    intro b hbm
    have := hb b hbm
    simp only [braceFree, Bool.and_eq_true, Bool.not_eq_true'] at this
    exact this.1
  have htcolon : braceFree (t ++ ":") = true :=
    braceFree_append t ":" ht braceFree_colon_tok
  have hopenX : hasOpenBrace (t ++ ":") = false := by
    have := htcolon
    simp only [braceFree, Bool.and_eq_true, Bool.not_eq_true'] at this
    exact this.1
  have hflush := flushBareItems_skip bares items (t ++ ":") "\x7b"
    (paramsTokens ps ++ ["\x7d"]) hopenBares hopenX (by decide)
  show ((t ++ ":") :: "\x7b" :: (paramsTokens ps ++ ["\x7d"])).foldlM normStep
      ⟨items, bares, 0⟩ = _
  rw [List.foldlM_cons, normStep_plain _ _ htcolon]
  simp only [Option.pure_def, Option.bind_eq_bind, Option.some_bind]
  rw [List.foldlM_cons]
  have hopen : normStep ⟨items, bares ++ [t ++ ":"], 0⟩ "\x7b" =
      some ⟨items, bares ++ [t ++ ":"] ++ ["\x7b"], 1⟩ := rfl
  rw [hopen]
  simp only [Option.pure_def, Option.bind_eq_bind, Option.some_bind]
  rw [List.foldlM_append,
    foldlM_normStep_plain (paramsTokens ps) htok items
      (bares ++ [t ++ ":"] ++ ["\x7b"]) 1]
  simp only [Option.pure_def, Option.bind_eq_bind, Option.some_bind]
  rw [List.foldlM_cons]
  have hclose : normStep
      ⟨items, bares ++ [t ++ ":"] ++ ["\x7b"] ++ paramsTokens ps, 1⟩ "\x7d" =
      some ⟨items ++ bares.map mkBareItem ++ [bracedItemTokens t ps], [], 0⟩ := by
    have heq : ∀ (its : List (List String)) (cur : List String),
        normStep ⟨its, cur, 1⟩ "\x7d" =
          match flushBareItems its (cur ++ ["\x7d"]) with
          | some (items2, item) => some ⟨items2 ++ [item], [], 0⟩
          | none => none := fun its cur => rfl
    rw [heq]
    have harg : (bares ++ [t ++ ":"] ++ ["\x7b"] ++ paramsTokens ps) ++ ["\x7d"] =
        bares ++ (t ++ ":") :: "\x7b" :: (paramsTokens ps ++ ["\x7d"]) := by
      simp [List.append_assoc]
    rw [harg, hflush]
    rfl
  rw [hclose]
  simp

/-- Scanning a whole plan's shorthand tokens from depth 0: the flushed items
and the still-buffered bare tokens are exactly `normFlushed` and
`trailingBares`. -/
theorem foldlM_plan :
    ∀ (plan : List PlanEntry), wfPlan plan = true →
      ∀ (items : List (List String)) (bares : List String),
        (∀ b ∈ bares, braceFree b = true) →
        (planShorthandTokens plan).foldlM normStep ⟨items, bares, 0⟩ =
          some ⟨items ++ normFlushed bares plan, trailingBares bares plan, 0⟩ := by
  intro plan
  induction plan with
  | nil =>
    intro _ items bares _
    simp [planShorthandTokens, normFlushed, trailingBares]
  | cons e rest ih =>
    intro hwf items bares hb
    have hwf' : wfEntry e = true ∧ wfPlan rest = true := by
      simpa [wfPlan, List.all_cons, Bool.and_eq_true] using hwf
    rcases e with ⟨t, ps⟩
    cases ps with
    | none =>
      have ht : braceFree t = true := by
        simpa [wfEntry] using hwf'.1
      simp only [planShorthandTokens, List.flatMap_cons, shorthandEntryTokens]
      rw [List.foldlM_append]
      have h1 : ([t]).foldlM normStep ⟨items, bares, 0⟩ =
          some ⟨items, bares ++ [t], 0⟩ := by
        rw [List.foldlM_cons, normStep_plain _ _ ht]
        simp
      rw [h1]
      simp only [Option.pure_def, Option.bind_eq_bind, Option.some_bind]
      have hb' : ∀ b ∈ bares ++ [t], braceFree b = true := by
        intro b hbm
        rcases List.mem_append.mp hbm with h | h
        · exact hb b h
        · simp only [List.mem_singleton] at h
          rw [h]
          exact ht
      have h2 := ih hwf'.2 items (bares ++ [t]) hb'
      simp only [planShorthandTokens] at h2
      rw [h2]
      rfl
    | some ps' =>
      have ht : braceFree t = true := by
        have := hwf'.1
        simp only [wfEntry, Bool.and_eq_true] at this
        exact this.1
      have hps : ∀ p ∈ ps', (braceFree p.1 && wfValue p.2) = true := by
        have := hwf'.1
        simp only [wfEntry, Bool.and_eq_true, List.all_eq_true] at this
        intro p hp
        rw [Bool.and_eq_true]
        exact this.2 p hp
      simp only [planShorthandTokens, List.flatMap_cons, shorthandEntryTokens]
      rw [List.foldlM_append, foldlM_entry_braced t ps' ht hps items bares hb]
      simp only [Option.pure_def, Option.bind_eq_bind, Option.some_bind]
      have h2 := ih hwf'.2
        (items ++ bares.map mkBareItem ++ [bracedItemTokens t ps']) []
        (fun b hbm => absurd hbm (List.not_mem_nil b))
      simp only [planShorthandTokens] at h2
      rw [h2]
      simp [normFlushed, trailingBares, List.append_assoc]

/-- Flushing the trailing bare tokens after the scan turns the flushed items
plus buffer into exactly one canonical item per plan entry. -/
theorem normFlushed_flat :
    ∀ (plan : List PlanEntry) (bares : List String),
      normFlushed bares plan ++ (trailingBares bares plan).map mkBareItem =
        bares.map mkBareItem ++ plan.map canonicalItemTokens := by
  intro plan
  induction plan with
  | nil => intro bares; simp [normFlushed, trailingBares]
  | cons e rest ih =>
    intro bares
    rcases e with ⟨t, ps⟩
    cases ps with
    | none =>
      simp only [normFlushed, trailingBares, List.map_cons]
      rw [ih (bares ++ [t])]
      simp [canonicalItemTokens]
    | some ps' =>
      simp only [normFlushed, trailingBares, List.map_cons, List.append_assoc]
      rw [ih []]
      simp [canonicalItemTokens]

/-- C7: for every plan expressible in both surface syntaxes (all task names,
parameter keys and parameter values free of brace characters), parsing the
shorthand token stream — the bracket-matching normalization pass followed by
the item load — yields exactly the internal plan representation of the
canonical form: the same ordered list of (task, parameters, optional target
node names) entries. -/
theorem dsl_canonical_shorthand_equivalence (plan : List PlanEntry)
    (hwf : wfPlan plan = true) :
    parseShorthandPlan (planShorthandTokens plan) =
      some (parseCanonicalPlan plan) := by
  unfold parseShorthandPlan normalizeDeploymentTokens
  rw [foldlM_plan plan hwf [] [] (fun b hbm => absurd hbm (List.not_mem_nil b))]
  simp only [Option.pure_def, Option.bind_eq_bind, Option.some_bind,
    Option.map_some, List.nil_append]
  rw [normFlushed_flat plan []]
  simp [parseCanonicalPlan]

/-- C7 witness: the two-task example plan (one task with a parameter and an
explicit target list, one zero-parameter task) parses identically through
both syntaxes. -/
theorem dsl_canonical_shorthand_equivalence_witness :
    parseShorthandPlan (planShorthandTokens planExample) =
      some (parseCanonicalPlan planExample) :=
  dsl_canonical_shorthand_equivalence planExample (by decide)

end Storm
